import Mathlib

/-!
Verification of the Sudoku solver in src/sudoku/solver.py.

Modelling conventions (shallow embedding of the Python source):

* A cell is a pair of natural numbers, as in the source where cells are
  tuples (row, col).
* The input numpy array sudoku is modelled as a total function from cells
  to naturals (0 encodes a blank cell); only the 81 in-range cells are
  ever read by the solver.
* The mutable numpy object array sol_array (entries None or an integer)
  is modelled as a total function from cells to Option Nat, threaded
  explicitly through the recursion; sol_array starts as np.full((9,9), None),
  i.e. the constant none function.
* The Python dictionaries order_values and members are keyed by exactly the
  81 cells of the board; they are modelled as total functions from cells
  (the values at out-of-range cells are never read or written by the code).
  Python sets of small integers are modelled as Finset Nat, which captures
  their contents exactly.
* Python mutates order_values in place and restores it from a full backup
  dictionary (a copy of every entry) when a branch fails; since the backup
  contains every key, the restoration yields exactly the mapping that was
  backed up, so the pure embedding simply resumes with the earlier value.
* Likewise, sol_array[row][col] = None after a failed branch restores
  sol_array to exactly the value it had when the cell was selected, because
  get_empty_var only ever returns a cell that is unassigned; the embedding
  resumes with the earlier function.
* The loop for value in order_values[empty_var].copy() iterates over a
  snapshot of a CPython set whose elements are the integers 1..9; CPython
  stores such a set in a hash table indexed by the values themselves, so the
  iteration visits the values in ascending order.  The embedding fixes that
  order with set_iter, the ascending enumeration of the set.
* The recursion of depth_first_search is modelled with an explicit fuel
  parameter; the outer Option is none when the fuel runs out.  We prove
  that fuel 82 always suffices (each recursive call has strictly fewer
  unassigned cells, and there are 81 cells), so the extra constructor is
  unreachable at the top-level call.
* depth_first_search additionally returns the chronological list of the
  values taken by sol_array after each in-place mutation (each tentative
  assignment and each restoration on backtrack).  forward_check never
  touches sol_array, so this trace contains every distinct state of the
  solution array reachable during the search.
-/

/-- A board cell, written (row, column) as in the source. -/
abbrev Cell : Type := ℕ × ℕ

/-- The input puzzle: 9x9 numpy array, 0 denotes a blank cell. -/
abbrev InGrid : Type := Cell → ℕ

/-- The mutable solution array sol_array: none is numpy None (unassigned). -/
abbrev Grid : Type := Cell → Option ℕ

/-- The order_values dictionary: candidate set of each cell. -/
abbrev OV : Type := Cell → Finset ℕ

/-- The returned 9x9 integer array. -/
abbrev OutGrid : Type := Cell → ℤ

/-- Pointwise update of a mapping at one key, modelling an in-place store
into a numpy array or a Python dictionary. -/
def updMap {α : Type} (f : Cell → α) (a : Cell) (b : α) : Cell → α :=
  fun x => if x = a then b else f x

/-- variables = [(i, j) for i in range(9) for j in range(9)] (row-major). -/
def allCells : List Cell :=
  (List.range 9).flatMap (fun i => (List.range 9).map (fun j => (i, j)))

/-- The elements of a finite set of naturals listed in ascending order: the
order in which CPython iterates a set of small non-negative integers (the
hash of a small int is the int itself, so the hash table stores 1..9 in
ascending slot order).  This is the iteration order of
order_values[empty_var].copy(). -/
def set_iter (s : Finset ℕ) : List ℕ :=
  (List.range (s.sup id + 1)).filter (fun v => decide (v ∈ s))

/-- populate_order_values: singleton for a pre-filled cell, 1..9 for a blank. -/
def populate_order_values (sudoku : InGrid) : OV :=
  fun var => if sudoku var = 0 then Finset.Icc 1 9 else {sudoku var}

/-- populate_members: the list built for members[var] - all cells of the same
row (except var), then of the same column (except var), then of the same 3x3
box (except var), in the source's append order.  Note the same cell can occur
twice (a box neighbour sharing the row or the column is appended twice). -/
def populate_members (var : Cell) : List Cell :=
  (((List.range 9).filter (fun j => decide (j ≠ var.2))).map (fun j => (var.1, j)))
  ++ (((List.range 9).filter (fun i => decide (i ≠ var.1))).map (fun i => (i, var.2)))
  ++ ((List.range' (3 * (var.1 / 3)) 3).flatMap (fun i =>
        (List.range' (3 * (var.2 / 3)) 3).filterMap (fun j =>
          if var ≠ (i, j) then some (i, j) else none)))

/-- is_valid: no member of var already holds the value. -/
def is_valid (var : Cell) (value : ℕ) (sol : Grid) : Bool :=
  (populate_members var).all (fun m => decide (sol m ≠ some value))

/-- The restoration loop of forward_check: add the value back into the
candidate set of every changed cell. -/
def restore_values (value : ℕ) (changes : List Cell) (ov : OV) : OV :=
  changes.foldl (fun acc c => updMap acc c (insert value (acc c))) ov

/-- The member loop of forward_check: discard value from each member's
candidate set, recording changes; on an emptied set restore and fail. -/
def forward_check_go (value : ℕ) (ov : OV) (changes : List Cell) :
    List Cell → Bool × OV
  | [] => (true, ov)
  | m :: ms =>
    if value ∈ ov m then
      let ov2 := updMap ov m ((ov m).erase value)
      if (ov2 m).card = 0 then
        (false, restore_values value (changes ++ [m]) ov2)
      else
        forward_check_go value ov2 (changes ++ [m]) ms
    else
      forward_check_go value ov changes ms

/-- forward_check(var, value, members, order_values): Bool result together
with the candidate mapping as it stands when the call returns. -/
def forward_check (var : Cell) (value : ℕ) (ov : OV) : Bool × OV :=
  forward_check_go value ov [] (populate_members var)

/-- Index of the first minimum of a list, as computed by np.argmin. -/
def argmin_idx : List ℕ → ℕ
  | [] => 0
  | x :: xs => if xs.all (fun y => decide (x ≤ y)) then 0 else argmin_idx xs + 1

/-- get_empty_var: the unassigned cell (in row-major order) whose candidate
set is smallest; none models the error raised by np.argmin on an empty list
(never reached: the caller only asks when an unassigned cell exists). -/
def get_empty_var (sol : Grid) (ov : OV) : Option Cell :=
  let empty_variables := allCells.filter (fun v => (sol v).isNone)
  empty_variables.get? (argmin_idx (empty_variables.map (fun v => (ov v).card)))

/-- The for value in order_values[empty_var].copy() loop of
depth_first_search.  rec is the recursive call (one fuel level down).  The
returned list is the chronological trace of sol_array states: the state
after each tentative assignment and after each restoration on backtrack.
Unassigning the tried cell restores sol exactly (the cell was unassigned
when selected), so the embedding resumes with sol itself. -/
def try_values (rec : Grid → OV → Option (Option Grid × List Grid))
    (var : Cell) (sol : Grid) (ov : OV) :
    List ℕ → Option (Option Grid × List Grid)
  | [] => some (none, [])
  | value :: rest =>
    if is_valid var value sol = true then
      let sol2 := updMap sol var (some value)
      let fc := forward_check var value ov
      if fc.1 = true then
        match rec sol2 fc.2 with
        | none => none
        | some (some s, tr) => some (some s, sol2 :: tr)
        | some (none, tr) =>
          match try_values rec var sol ov rest with
          | none => none
          | some pr => some (pr.1, sol2 :: (tr ++ sol :: pr.2))
      else
        match try_values rec var sol ov rest with
        | none => none
        | some pr => some (pr.1, sol2 :: sol :: pr.2)
    else
      try_values rec var sol ov rest

/-- depth_first_search with explicit fuel (outer none = out of fuel, which we
prove unreachable from the top-level call).  The inner Option Grid is the
Python return value: the solved array, or None on exhaustion. -/
def depth_first_search : ℕ → Grid → OV → Option (Option Grid × List Grid)
  | 0, _, _ => none
  | fuel + 1, sol, ov =>
    if allCells.all (fun v => (sol v).isSome) then
      some (some sol, [])
    else
      match get_empty_var sol ov with
      | none => some (none, [])
      | some var =>
        try_values (depth_first_search fuel) var sol ov (set_iter (ov var))

/-- sol_array = np.full((9, 9), None). -/
def sol0 : Grid := fun _ => none

/-- np.full((9, 9), -1): the failure sentinel. -/
def failed_grid : OutGrid := fun _ => -1

/-- The solved sol_array viewed as the returned integer array (every cell is
assigned when it is returned; the -1 branch is dead code needed for
totality). -/
def grid_output (s : Grid) : OutGrid :=
  fun c => (s c).elim (-1) (fun v => (v : ℤ))

/-- sudoku_solver: build order_values, run the search from the all-None
sol_array, and return the solution or the all-(-1) sentinel. -/
def sudoku_solver (sudoku : InGrid) : OutGrid :=
  match depth_first_search 82 sol0 (populate_order_values sudoku) with
  | some (some s, _) => grid_output s
  | _ => failed_grid

/-- The trace component of a depth_first_search result. -/
def traceOf : Option (Option Grid × List Grid) → List Grid
  | none => []
  | some p => p.2

/-- Sudoku consistency of a partial solution array: no two distinct cells
that are members (peers) of each other hold the same assigned value. -/
def Consistent (sol : Grid) : Prop :=
  ∀ c ∈ allCells, ∀ m ∈ populate_members c, sol c ≠ none → sol c ≠ sol m

/-- Every cell of the board is assigned. -/
def FullyAssigned (sol : Grid) : Prop :=
  ∀ c ∈ allCells, (sol c).isSome = true

/-- Every assigned value lies in the given per-cell candidate universe. -/
def SolSub (sol : Grid) (P : OV) : Prop :=
  ∀ c ∈ allCells, ∀ w, sol c = some w → w ∈ P c

/-- The peer relation as the specification words it: a distinct cell sharing
the row, the column, or the 3x3 box. -/
def specPeer (c m : Cell) : Prop :=
  m ≠ c ∧ (c.1 = m.1 ∨ c.2 = m.2 ∨ (c.1 / 3 = m.1 / 3 ∧ c.2 / 3 = m.2 / 3))

instance (c m : Cell) : Decidable (specPeer c m) := by
  unfold specPeer; infer_instance

/-- A full grid of digits that solves the puzzle while keeping its non-zero
entries, as worded in the claim: entries 1..9, pre-filled cells kept, and no
two distinct cells of a row, column or box equal. -/
def IsCompletion (sudoku : InGrid) (w : Cell → ℕ) : Prop :=
  (∀ c ∈ allCells, 1 ≤ w c ∧ w c ≤ 9) ∧
  (∀ c ∈ allCells, sudoku c ≠ 0 → w c = sudoku c) ∧
  (∀ c ∈ allCells, ∀ m ∈ allCells, c ≠ m →
    (c.1 = m.1 ∨ c.2 = m.2 ∨ (c.1 / 3 = m.1 / 3 ∧ c.2 / 3 = m.2 / 3)) →
    w c ≠ w m)

/-- A concrete fully solved grid, used to exercise the solver. -/
def wrows : List (List ℕ) :=
  [[1, 2, 3, 4, 5, 6, 7, 8, 9],
   [4, 5, 6, 7, 8, 9, 1, 2, 3],
   [7, 8, 9, 1, 2, 3, 4, 5, 6],
   [2, 3, 4, 5, 6, 7, 8, 9, 1],
   [5, 6, 7, 8, 9, 1, 2, 3, 4],
   [8, 9, 1, 2, 3, 4, 5, 6, 7],
   [3, 4, 5, 6, 7, 8, 9, 1, 2],
   [6, 7, 8, 9, 1, 2, 3, 4, 5],
   [9, 1, 2, 3, 4, 5, 6, 7, 8]]

/-- The fully solved input grid (all 81 cells pre-filled). -/
def wgrid : InGrid := fun c => ((wrows.getD c.1 []).getD c.2 0)

/-- An unsolvable input: two 1s in row 0, everything else blank. -/
def ugrid : InGrid := fun c => if c = (0, 0) ∨ c = (0, 1) then 1 else 0

/-- Correspondence of two search results that were produced from states
agreeing on the 81 board cells: both out of fuel, both failed, or both
solved with solution arrays agreeing on the board. -/
def ResultRel : Option (Option Grid × List Grid) →
    Option (Option Grid × List Grid) → Prop
  | none, none => True
  | some p1, some p2 =>
    match p1.1, p2.1 with
    | none, none => True
    | some s1, some s2 => ∀ c ∈ allCells, s1 c = s2 c
    | _, _ => False
  | _, _ => False

/-! ### Basic facts about the board and the helper functions -/

theorem updMap_same {α : Type} (f : Cell → α) (a : Cell) (b : α) :
    updMap f a b a = b := by
  simp [updMap]

theorem updMap_ne {α : Type} (f : Cell → α) (a x : Cell) (b : α) (h : x ≠ a) :
    updMap f a b x = f x := by
  simp [updMap, h]

set_option maxRecDepth 1000000

set_option maxHeartbeats 4000000

theorem mem_allCells_iff (c : Cell) : c ∈ allCells ↔ c.1 < 9 ∧ c.2 < 9 := by
  obtain ⟨r, cl⟩ := c
  simp only [allCells, List.mem_flatMap, List.mem_map, List.mem_range, Prod.mk.injEq]
  constructor
  · rintro ⟨i, hi, j, hj, rfl, rfl⟩
    exact ⟨hi, hj⟩
  · rintro ⟨h1, h2⟩
    exact ⟨r, h1, cl, h2, rfl, rfl⟩

theorem allCells_nodup : allCells.Nodup := by decide

theorem mem_set_iter (s : Finset ℕ) (v : ℕ) : v ∈ set_iter s ↔ v ∈ s := by
  simp only [set_iter, List.mem_filter, List.mem_range, decide_eq_true_eq]
  constructor
  · exact fun h => h.2
  · intro h
    exact ⟨Nat.lt_succ_of_le (Finset.le_sup (f := id) h), h⟩

/-! ### Geometry of the members lists -/

theorem mem_populate_members (c m : Cell) :
    m ∈ populate_members c ↔
      ((m.1 = c.1 ∧ m.2 < 9 ∧ m.2 ≠ c.2) ∨
       (m.2 = c.2 ∧ m.1 < 9 ∧ m.1 ≠ c.1) ∨
       (m ≠ c ∧ 3 * (c.1 / 3) ≤ m.1 ∧ m.1 < 3 * (c.1 / 3) + 3 ∧
        3 * (c.2 / 3) ≤ m.2 ∧ m.2 < 3 * (c.2 / 3) + 3)) := by
  obtain ⟨r, cl⟩ := c
  obtain ⟨a, b⟩ := m
  simp only [populate_members, List.mem_append, List.mem_map, List.mem_filter,
    List.mem_range, List.mem_flatMap, List.mem_filterMap, List.mem_range',
    decide_eq_true_eq, Prod.mk.injEq, ne_eq]
  constructor
  · rintro ((⟨j, ⟨hj9, hjne⟩, rfl, rfl⟩ | ⟨i, ⟨hi9, hine⟩, rfl, rfl⟩) | h)
    · exact Or.inl ⟨rfl, hj9, hjne⟩
    · exact Or.inr (Or.inl ⟨rfl, hi9, hine⟩)
    · obtain ⟨i, hi, j, hj, hij⟩ := h
      by_cases hc : r = i ∧ cl = j
      · rw [if_neg (not_not_intro hc)] at hij
        cases hij
      · rw [if_pos hc] at hij
        injection hij with h12
        cases h12
        obtain ⟨di, hdi, rfl⟩ := hi
        obtain ⟨dj, hdj, rfl⟩ := hj
        refine Or.inr (Or.inr ?_)
        omega
  · rintro (⟨h1, h2, h3⟩ | ⟨h1, h2, h3⟩ | ⟨hne, h1, h2, h3, h4⟩)
    · exact Or.inl (Or.inl ⟨b, ⟨h2, h3⟩, h1.symm, rfl⟩)
    · exact Or.inl (Or.inr ⟨a, ⟨h2, h3⟩, rfl, h1.symm⟩)
    · refine Or.inr ⟨a, ⟨a - 3 * (r / 3), by omega, by omega⟩,
        b, ⟨b - 3 * (cl / 3), by omega, by omega⟩, ?_⟩
      rw [if_pos (show ¬ (r = a ∧ cl = b) by omega)]

theorem ne_cell (c m : Cell) : m ≠ c ↔ (m.1 ≠ c.1 ∨ m.2 ≠ c.2) := by
  obtain ⟨r, cl⟩ := c
  obtain ⟨a, b⟩ := m
  simp only [ne_eq, Prod.mk.injEq, not_and_or]

theorem members_subset_allCells :
    ∀ c ∈ allCells, ∀ m ∈ populate_members c, m ∈ allCells := by
  intro c hc m hm
  rw [mem_allCells_iff] at hc ⊢
  rw [mem_populate_members] at hm
  rcases hm with ⟨h1, h2, _⟩ | ⟨h1, h2, _⟩ | ⟨_, h1, h2, h3, h4⟩ <;> omega

theorem self_not_mem_members : ∀ c : Cell, c ∉ populate_members c := by
  intro c hc
  rw [mem_populate_members] at hc
  rcases hc with ⟨_, _, h⟩ | ⟨_, _, h⟩ | ⟨h, _⟩ <;> simp at h

theorem members_symm :
    ∀ c m : Cell, c.1 < 9 → c.2 < 9 → m ∈ populate_members c →
      c ∈ populate_members m := by
  intro c m h1c h2c hm
  rw [mem_populate_members] at hm ⊢
  rw [ne_cell] at hm ⊢
  rcases hm with ⟨h1, h2, h3⟩ | ⟨h1, h2, h3⟩ | ⟨hne, h1, h2, h3, h4⟩
  · exact Or.inl ⟨h1.symm, h2c, by omega⟩
  · exact Or.inr (Or.inl ⟨h1.symm, h1c, by omega⟩)
  · exact Or.inr (Or.inr ⟨by omega, by omega, by omega, by omega, by omega⟩)

theorem mem_members_row :
    ∀ c m : Cell, m.2 < 9 → c ≠ m → c.1 = m.1 → m ∈ populate_members c := by
  intro c m h9 hne hr
  rw [mem_populate_members]
  rw [ne_eq, Prod.ext_iff, not_and_or] at hne
  exact Or.inl ⟨hr.symm, h9, by tauto⟩

theorem mem_members_col :
    ∀ c m : Cell, m.1 < 9 → c ≠ m → c.2 = m.2 → m ∈ populate_members c := by
  intro c m h9 hne hcl
  rw [mem_populate_members]
  rw [ne_eq, Prod.ext_iff, not_and_or] at hne
  exact Or.inr (Or.inl ⟨hcl.symm, h9, by tauto⟩)

theorem mem_members_box :
    ∀ c m : Cell, m.1 < 9 → m.2 < 9 → c ≠ m → c.1 / 3 = m.1 / 3 →
      c.2 / 3 = m.2 / 3 → m ∈ populate_members c := by
  intro c m h1 h2 hne hr hcl
  rw [mem_populate_members]
  refine Or.inr (Or.inr ⟨?_, by omega, by omega, by omega, by omega⟩)
  intro hc
  exact hne (hc.symm)

/-! ### argmin_idx: index of the first minimum, as np.argmin computes it -/

theorem argmin_idx_lt_length : ∀ l : List ℕ, l ≠ [] → argmin_idx l < l.length := by
  intro l
  induction l with
  | nil => intro h; exact absurd rfl h
  | cons x xs ih =>
    intro _
    by_cases hall : xs.all (fun y => decide (x ≤ y)) = true
    · simp [argmin_idx, hall]
    · have hxs : xs ≠ [] := by
        intro hc; subst hc; simp at hall
      have := ih hxs
      simp [argmin_idx, hall]
      omega

theorem argmin_idx_min :
    ∀ l : List ℕ, ∀ j, j < l.length → l.getD (argmin_idx l) 0 ≤ l.getD j 0 := by
  intro l
  induction l with
  | nil => intro j hj; simp at hj
  | cons x xs ih =>
    intro j hj
    by_cases hall : xs.all (fun y => decide (x ≤ y)) = true
    · simp only [argmin_idx, hall, if_true, List.getD_cons_zero]
      match j with
      | 0 => simp
      | j + 1 =>
        simp only [List.getD_cons_succ]
        have hj' : j < xs.length := by simpa using hj
        have hmem : xs.getD j 0 ∈ xs := by
          rw [List.getD_eq_getElem xs 0 hj']
          exact List.getElem_mem hj'
        have := List.all_eq_true.mp hall (xs.getD j 0) hmem
        simpa using this
    · have hxs : xs ≠ [] := by intro hc; subst hc; simp at hall
      obtain ⟨y, hy, hxy⟩ : ∃ y ∈ xs, ¬ x ≤ y := by
        by_contra hc
        push_neg at hc
        exact hall (List.all_eq_true.mpr (fun z hz => decide_eq_true (hc z hz)))
      obtain ⟨jy, hjy, hjyv⟩ := List.mem_iff_getElem.mp hy
      have hymin : xs.getD (argmin_idx xs) 0 ≤ y := by
        have := ih jy hjy
        rwa [List.getD_eq_getElem xs 0 hjy, hjyv] at this
      simp only [argmin_idx, hall, Bool.false_eq_true, if_false]
      match j with
      | 0 =>
        simp only [List.getD_cons_zero, List.getD_cons_succ]
        omega
      | j + 1 =>
        simp only [List.getD_cons_succ]
        exact ih j (by simpa using hj)

theorem argmin_idx_first :
    ∀ l : List ℕ, ∀ j, j < argmin_idx l → l.getD (argmin_idx l) 0 < l.getD j 0 := by
  intro l
  induction l with
  | nil => intro j hj; simp [argmin_idx] at hj
  | cons x xs ih =>
    intro j hj
    by_cases hall : xs.all (fun y => decide (x ≤ y)) = true
    · simp [argmin_idx, hall] at hj
    · have hxs : xs ≠ [] := by intro hc; subst hc; simp at hall
      obtain ⟨y, hy, hxy⟩ : ∃ y ∈ xs, ¬ x ≤ y := by
        by_contra hc
        push_neg at hc
        exact hall (List.all_eq_true.mpr (fun z hz => decide_eq_true (hc z hz)))
      obtain ⟨jy, hjy, hjyv⟩ := List.mem_iff_getElem.mp hy
      have hymin : xs.getD (argmin_idx xs) 0 ≤ y := by
        have := argmin_idx_min xs jy hjy
        rwa [List.getD_eq_getElem xs 0 hjy, hjyv] at this
      simp only [argmin_idx, hall, Bool.false_eq_true, if_false] at hj ⊢
      match j with
      | 0 =>
        simp only [List.getD_cons_zero, List.getD_cons_succ]
        omega
      | j + 1 =>
        simp only [List.getD_cons_succ]
        exact ih j (by omega)

/-! ### get_empty_var: minimum-remaining-values selection (claim C6) -/

theorem get_empty_var_none_iff (sol : Grid) (ov : OV) :
    get_empty_var sol ov = none ↔
      allCells.filter (fun v => (sol v).isNone) = [] := by
  unfold get_empty_var
  constructor
  · intro h
    by_contra hne
    have hsz : (allCells.filter (fun v => (sol v).isNone)).map
        (fun v => (ov v).card) ≠ [] := by
      intro hc
      exact hne (List.map_eq_nil_iff.mp hc)
    have hlt := argmin_idx_lt_length _ hsz
    rw [List.length_map] at hlt
    rw [List.get?_eq_get hlt] at h
    cases h
  · intro h
    rw [h]
    rfl

/-- Bridge between the argmin over the size list and the cell list. -/
theorem getD_map_nat (l : List Cell) (f : Cell → ℕ) (j : ℕ) (hj : j < l.length) :
    (l.map f).getD j 0 = f (l.getD j ((0 : ℕ), (0 : ℕ))) := by
  have hj2 : j < (l.map f).length := by rwa [List.length_map]
  rw [List.getD_eq_getElem _ _ hj2, List.getD_eq_getElem _ _ hj, List.getElem_map]

/-- np.argmin over the mapped sizes selects the first element of the list
with minimal f-value. -/
theorem first_min_spec (l : List Cell) (f : Cell → ℕ) (hl : l ≠ []) :
    ∃ c, l.get? (argmin_idx (l.map f)) = some c ∧ c ∈ l ∧
      (∀ v ∈ l, f c ≤ f v) ∧
      (∃ i, i < l.length ∧ l.getD i ((0 : ℕ), (0 : ℕ)) = c ∧
        ∀ v ∈ l.take i, f c < f v) := by
  have hmapne : l.map f ≠ [] := by
    intro hc
    exact hl (List.map_eq_nil_iff.mp hc)
  have hlt : argmin_idx (l.map f) < l.length := by
    have := argmin_idx_lt_length _ hmapne
    rwa [List.length_map] at this
  refine ⟨l.getD (argmin_idx (l.map f)) ((0 : ℕ), (0 : ℕ)), ?_, ?_, ?_,
    argmin_idx (l.map f), hlt, rfl, ?_⟩
  · rw [List.get?_eq_get hlt]
    rw [List.get_eq_getElem, List.getD_eq_getElem _ _ hlt]
  · rw [List.getD_eq_getElem _ _ hlt]
    exact List.getElem_mem hlt
  · intro v hvl
    obtain ⟨j, hj, rfl⟩ := List.mem_iff_getElem.mp hvl
    have hmin := argmin_idx_min (l.map f) j (by rwa [List.length_map])
    rw [getD_map_nat l f _ hlt, getD_map_nat l f j hj] at hmin
    rwa [List.getD_eq_getElem _ _ hj] at hmin
  · intro v hvt
    obtain ⟨j, hj, rfl⟩ := List.mem_iff_getElem.mp hvt
    have hjt : j < (l.take (argmin_idx (l.map f))).length := hj
    have hjlt : j < argmin_idx (l.map f) := by
      rw [List.length_take] at hjt
      omega
    have hjlen : j < l.length := by
      have := List.length_take_le (argmin_idx (l.map f)) l
      omega
    have hfirst := argmin_idx_first (l.map f) j hjlt
    rw [getD_map_nat l f _ hlt, getD_map_nat l f j hjlen] at hfirst
    have : (l.take (argmin_idx (l.map f)))[j] = l[j] := List.getElem_take ..
    rw [this]
    rwa [List.getD_eq_getElem _ _ hjlen] at hfirst

/-- Claim C6.  When at least one cell of the solution array is unassigned,
get_empty_var returns an unassigned cell of the board whose candidate set has
minimal cardinality among all unassigned cells, and every unassigned cell
strictly earlier in the row-major enumeration (the filtered list keeps the
row-major order of allCells) has a strictly larger candidate set: the first
minimum is selected, as np.argmin does. -/
theorem get_empty_var_mrv (sol : Grid) (ov : OV)
    (h : ∃ v ∈ allCells, sol v = none) :
    ∃ c, get_empty_var sol ov = some c ∧ c ∈ allCells ∧ sol c = none ∧
      (∀ v ∈ allCells, sol v = none → (ov c).card ≤ (ov v).card) ∧
      (∃ i, i < (allCells.filter (fun v => (sol v).isNone)).length ∧
        (allCells.filter (fun v => (sol v).isNone)).getD i ((0 : ℕ), (0 : ℕ)) = c ∧
        ∀ v ∈ (allCells.filter (fun v => (sol v).isNone)).take i,
          (ov c).card < (ov v).card) := by
  obtain ⟨v0, hv0, hv0n⟩ := h
  have hv0es : v0 ∈ allCells.filter (fun v => (sol v).isNone) :=
    List.mem_filter.mpr ⟨hv0, by simp [hv0n]⟩
  have hes : allCells.filter (fun v => (sol v).isNone) ≠ [] :=
    List.ne_nil_of_mem hv0es
  obtain ⟨c, hget, hcmem, hmin, i, hilt, hieq, htake⟩ :=
    first_min_spec (allCells.filter (fun v => (sol v).isNone))
      (fun v => (ov v).card) hes
  have hcfilter := List.mem_filter.mp hcmem
  refine ⟨c, hget, hcfilter.1, ?_, ?_, i, hilt, hieq, htake⟩
  · have := hcfilter.2
    simpa [Option.isNone_iff_eq_none] using this
  · intro v hvc hvn
    exact hmin v (List.mem_filter.mpr ⟨hvc, by simp [hvn]⟩)

/-- Witness for C6 at a concrete state: the initial all-None array with the
candidate sets of the unsolvable two-1s grid. -/
theorem get_empty_var_mrv_witness :
    (∃ v ∈ allCells, sol0 v = none) ∧
    (∃ c, get_empty_var sol0 (populate_order_values ugrid) = some c ∧
      c ∈ allCells ∧ sol0 c = none ∧
      (∀ v ∈ allCells, sol0 v = none →
        ((populate_order_values ugrid) c).card ≤
          ((populate_order_values ugrid) v).card) ∧
      (∃ i, i < (allCells.filter (fun v => (sol0 v).isNone)).length ∧
        (allCells.filter (fun v => (sol0 v).isNone)).getD i ((0 : ℕ), (0 : ℕ)) = c ∧
        ∀ v ∈ (allCells.filter (fun v => (sol0 v).isNone)).take i,
          ((populate_order_values ugrid) c).card <
            ((populate_order_values ugrid) v).card)) :=
  ⟨⟨(0, 0), by decide, rfl⟩,
    get_empty_var_mrv sol0 (populate_order_values ugrid)
      ⟨(0, 0), by decide, rfl⟩⟩

/-! ### forward_check: the pruning/restoration contract (claim C7) -/

theorem restore_values_exact (value : ℕ) :
    ∀ (changes : List Cell) (ov ov0 : OV),
      changes.Nodup →
      (∀ c ∈ changes, ov c = (ov0 c).erase value ∧ value ∈ ov0 c) →
      (∀ c, c ∉ changes → ov c = ov0 c) →
      restore_values value changes ov = ov0 := by
  intro changes
  induction changes with
  | nil =>
    intro ov ov0 _ _ hout
    funext c
    exact hout c (List.not_mem_nil c)
  | cons c0 rest ih =>
    intro ov ov0 hnd hin hout
    have hc0 : ov c0 = (ov0 c0).erase value ∧ value ∈ ov0 c0 :=
      hin c0 (List.mem_cons_self c0 rest)
    have hstep : restore_values value (c0 :: rest) ov =
        restore_values value rest (updMap ov c0 (insert value (ov c0))) := rfl
    rw [hstep]
    apply ih
    · exact List.Nodup.of_cons hnd
    · intro c hc
      have hne : c ≠ c0 := by
        intro hceq
        subst hceq
        exact (List.nodup_cons.mp hnd).1 hc
      rw [updMap_ne _ _ _ _ hne]
      exact hin c (List.mem_cons_of_mem _ hc)
    · intro c hc
      by_cases hceq : c = c0
      · subst hceq
        rw [updMap_same, hc0.1, Finset.insert_erase hc0.2]
      · rw [updMap_ne _ _ _ _ hceq]
        apply hout
        simp [List.mem_cons, hceq, hc]

theorem forward_check_go_spec (value : ℕ) (ov0 : OV) :
    ∀ (ms : List Cell) (ov : OV) (changes : List Cell),
      (∀ c, ov c = if c ∈ changes then (ov0 c).erase value else ov0 c) →
      (∀ c ∈ changes, value ∈ ov0 c ∧ ((ov0 c).erase value).card ≠ 0) →
      changes.Nodup →
      (((forward_check_go value ov changes ms).1 = false →
          (forward_check_go value ov changes ms).2 = ov0) ∧
       ((forward_check_go value ov changes ms).1 = true →
          (∀ c, (forward_check_go value ov changes ms).2 c =
            if c ∈ changes ∨ (c ∈ ms ∧ value ∈ ov0 c)
            then (ov0 c).erase value else ov0 c) ∧
          (∀ c, (c ∈ changes ∨ (c ∈ ms ∧ value ∈ ov0 c)) →
            ((ov0 c).erase value).card ≠ 0))) := by
  intro ms
  induction ms with
  | nil =>
    intro ov changes hchar hmem hnd
    constructor
    · intro hfalse
      cases hfalse
    · intro _
      constructor
      · intro c
        have := hchar c
        simpa using this
      · intro c hc
        simp only [List.not_mem_nil, false_and, or_false] at hc
        exact (hmem c hc).2
  | cons m ms ih =>
    intro ov changes hchar hmem hnd
    by_cases hvm : value ∈ ov m
    · have hmnotch : m ∉ changes := by
        intro hm
        have := hchar m
        rw [if_pos hm] at this
        rw [this] at hvm
        exact Finset.not_mem_erase value (ov0 m) hvm
      have hovm : ov m = ov0 m := by
        have := hchar m
        rwa [if_neg hmnotch] at this
      have hvm0 : value ∈ ov0 m := hovm ▸ hvm
      have hnd2 : (changes ++ [m]).Nodup := by
        simp [List.nodup_append, hnd, hmnotch]
      have hgo : forward_check_go value ov changes (m :: ms) =
          (if ((updMap ov m ((ov m).erase value)) m).card = 0 then
            (false, restore_values value (changes ++ [m])
              (updMap ov m ((ov m).erase value)))
          else
            forward_check_go value (updMap ov m ((ov m).erase value))
              (changes ++ [m]) ms) := by
        simp only [forward_check_go, if_pos hvm]
      have hchar2 : ∀ c, (updMap ov m ((ov m).erase value)) c =
          if c ∈ changes ++ [m] then (ov0 c).erase value else ov0 c := by
        intro c
        by_cases hceq : c = m
        · subst hceq
          rw [updMap_same, if_pos (by simp), hovm]
        · rw [updMap_ne _ _ _ _ hceq]
          have hch := hchar c
          by_cases hc : c ∈ changes
          · rw [if_pos hc] at hch
            rw [if_pos (show c ∈ changes ++ [m] by simp [hc])]
            exact hch
          · rw [if_neg hc] at hch
            rw [if_neg (show c ∉ changes ++ [m] by simp [hc, hceq])]
            exact hch
      by_cases hcard : ((updMap ov m ((ov m).erase value)) m).card = 0
      · rw [hgo, if_pos hcard]
        constructor
        · intro _
          apply restore_values_exact value (changes ++ [m])
          · exact hnd2
          · intro c hc
            rcases List.mem_append.mp hc with hcin | hcm
            · have hne : c ≠ m := by
                intro hceq
                subst hceq
                exact hmnotch hcin
              rw [updMap_ne _ _ _ _ hne]
              have := hchar c
              rw [if_pos hcin] at this
              exact ⟨this, (hmem c hcin).1⟩
            · have hcm' : c = m := by simpa using hcm
              subst hcm'
              rw [updMap_same, hovm]
              exact ⟨rfl, hvm0⟩
          · intro c hc
            have hne : c ≠ m := by
              intro hceq
              subst hceq
              exact hc (by simp)
            rw [updMap_ne _ _ _ _ hne]
            have := hchar c
            rw [if_neg (fun hcin => hc (by simp [hcin]))] at this
            exact this
        · intro htrue
          cases htrue
      · rw [hgo, if_neg hcard]
        have hmem2 : ∀ c ∈ changes ++ [m],
            value ∈ ov0 c ∧ ((ov0 c).erase value).card ≠ 0 := by
          intro c hc
          rcases List.mem_append.mp hc with hcin | hcm
          · exact hmem c hcin
          · have hcm' : c = m := by simpa using hcm
            subst hcm'
            refine ⟨hvm0, ?_⟩
            rw [updMap_same, hovm] at hcard
            exact hcard
        have hI := ih (updMap ov m ((ov m).erase value)) (changes ++ [m])
          hchar2 hmem2 hnd2
        have hiff : ∀ c, (c ∈ changes ++ [m] ∨ (c ∈ ms ∧ value ∈ ov0 c)) ↔
            (c ∈ changes ∨ (c ∈ m :: ms ∧ value ∈ ov0 c)) := by
          intro c
          simp only [List.mem_append, List.mem_singleton, List.mem_cons]
          by_cases hceq : c = m
          · simp [hceq, hvm0]
          · simp [hceq]
        constructor
        · exact hI.1
        · intro htrue
          refine ⟨?_, ?_⟩
          · intro c
            rw [(hI.2 htrue).1 c]
            exact if_congr (hiff c) rfl rfl
          · intro c hc
            exact (hI.2 htrue).2 c ((hiff c).mpr hc)
    · have hgo : forward_check_go value ov changes (m :: ms) =
          forward_check_go value ov changes ms := by
        simp only [forward_check_go, if_neg hvm]
      rw [hgo]
      have hI := ih ov changes hchar hmem hnd
      have hiff : ∀ c, (c ∈ changes ∨ (c ∈ ms ∧ value ∈ ov0 c)) ↔
          (c ∈ changes ∨ (c ∈ m :: ms ∧ value ∈ ov0 c)) := by
        intro c
        simp only [List.mem_cons]
        by_cases hceq : c = m
        · by_cases hmch : m ∈ changes
          · simp [hceq, hmch]
          · have hovm : ov m = ov0 m := by
              have := hchar m
              rwa [if_neg hmch] at this
            have hnotin : value ∉ ov0 m := fun hin => hvm (hovm ▸ hin)
            simp [hceq, hmch, hnotin]
        · simp [hceq]
      constructor
      · exact hI.1
      · intro htrue
        refine ⟨?_, ?_⟩
        · intro c
          rw [(hI.2 htrue).1 c]
          exact if_congr (hiff c) rfl rfl
        · intro c hc
          exact (hI.2 htrue).2 c ((hiff c).mpr hc)

theorem forward_check_spec (var : Cell) (value : ℕ) (ov : OV) :
    (((forward_check var value ov).1 = false →
        (forward_check var value ov).2 = ov) ∧
     ((forward_check var value ov).1 = true →
        (∀ c, (forward_check var value ov).2 c =
          if c ∈ populate_members var ∧ value ∈ ov c
          then (ov c).erase value else ov c) ∧
        (∀ c, (c ∈ populate_members var ∧ value ∈ ov c) →
          ((ov c).erase value).card ≠ 0))) := by
  have h := forward_check_go_spec value ov (populate_members var) ov []
    (by intro c; simp)
    (by intro c hc; exact absurd hc (List.not_mem_nil c))
    List.nodup_nil
  refine ⟨h.1, ?_⟩
  intro htrue
  refine ⟨?_, ?_⟩
  · intro c
    have := (h.2 htrue).1 c
    simpa using this
  · intro c hc
    exact (h.2 htrue).2 c (by simpa using hc)

theorem forward_check_sub (var : Cell) (value : ℕ) (ov : OV) :
    ∀ c, (forward_check var value ov).2 c ⊆ ov c := by
  intro c
  cases hb : (forward_check var value ov).1 with
  | false =>
    rw [(forward_check_spec var value ov).1 hb]
  | true =>
    rw [((forward_check_spec var value ov).2 hb).1 c]
    by_cases hcond : c ∈ populate_members var ∧ value ∈ ov c
    · rw [if_pos hcond]
      exact Finset.erase_subset value (ov c)
    · rw [if_neg hcond]

/-- Claim C7.  If forward_check returns False, the candidate mapping is
exactly what it was before the call; if it returns True, the mapping differs
exactly by value having been removed from the candidate set of every member
of var that contained it, and every modified set is non-empty afterwards. -/
theorem forward_check_contract (var : Cell) (value : ℕ) (ov : OV) :
    ((forward_check var value ov).1 = false →
      (forward_check var value ov).2 = ov) ∧
    ((forward_check var value ov).1 = true →
      (∀ c, (forward_check var value ov).2 c =
        if c ∈ populate_members var ∧ value ∈ ov c
        then (ov c).erase value else ov c) ∧
      (∀ c, (forward_check var value ov).2 c ≠ ov c →
        (forward_check var value ov).2 c ≠ ∅)) := by
  refine ⟨(forward_check_spec var value ov).1, ?_⟩
  intro htrue
  refine ⟨((forward_check_spec var value ov).2 htrue).1, ?_⟩
  intro c hne
  have hchar := ((forward_check_spec var value ov).2 htrue).1 c
  by_cases hcond : c ∈ populate_members var ∧ value ∈ ov c
  · rw [hchar, if_pos hcond]
    intro hemp
    have := ((forward_check_spec var value ov).2 htrue).2 c hcond
    rw [← Finset.card_eq_zero] at hemp
    exact this hemp
  · rw [hchar, if_neg hcond] at hne
    exact absurd rfl hne

/-- Witness for C7: on the two-1s grid, pruning 1 from the members of (0,0)
fails and restores the mapping; pruning 2 succeeds and yields the
characterized pruned mapping. -/
theorem forward_check_contract_witness :
    ((forward_check (0, 0) 1 (populate_order_values ugrid)).1 = false ∧
      (forward_check (0, 0) 1 (populate_order_values ugrid)).2 =
        populate_order_values ugrid) ∧
    ((forward_check (0, 0) 2 (populate_order_values ugrid)).1 = true ∧
      (∀ c, (forward_check (0, 0) 2 (populate_order_values ugrid)).2 c =
        if c ∈ populate_members (0, 0) ∧ 2 ∈ populate_order_values ugrid c
        then (populate_order_values ugrid c).erase 2
        else populate_order_values ugrid c)) :=
  ⟨⟨by decide,
    (forward_check_contract (0, 0) 1 (populate_order_values ugrid)).1
      (by decide)⟩,
   ⟨by decide,
    ((forward_check_contract (0, 0) 2 (populate_order_values ugrid)).2
      (by decide)).1⟩⟩

/-! ### The members mapping: 24 recorded entries, 20 distinct peers (claim C8) -/

/-- Counterexample for claim C8 as stated: the members list of cell (0,0)
records peer (0,1) twice (once as a row neighbour and once as a box
neighbour) and has 24 entries, not 20. -/
theorem populate_members_duplicate :
    (populate_members (0, 0)).count ((0 : ℕ), (1 : ℕ)) = 2 ∧
    (populate_members (0, 0)).length = 24 ∧
    ¬ (populate_members (0, 0)).Nodup := by decide

theorem populate_members_counts :
    ∀ var ∈ allCells, (populate_members var).length = 24 ∧
      (populate_members var).toFinset.card = 20 := by decide

/-- Claim C8, amended.  For every cell, the members list records, as a set,
exactly the 20 distinct other cells sharing its row, column or 3x3 box, and
never the cell itself; but the list has 24 entries, the 4 box neighbours
that also share the row or the column being recorded twice. -/
theorem populate_members_amended :
    ∀ var ∈ allCells,
      (∀ p, p ∈ populate_members var ↔ (p ∈ allCells ∧ specPeer var p)) ∧
      var ∉ populate_members var ∧
      (populate_members var).toFinset.card = 20 ∧
      (populate_members var).length = 24 := by
  intro var hvar
  have hbounds := (mem_allCells_iff var).mp hvar
  refine ⟨?_, self_not_mem_members var,
    (populate_members_counts var hvar).2, (populate_members_counts var hvar).1⟩
  intro p
  constructor
  · intro hp
    refine ⟨members_subset_allCells var hvar p hp, ?_⟩
    rw [mem_populate_members] at hp
    rw [specPeer, ne_cell]
    rcases hp with ⟨h1, h2, h3⟩ | ⟨h1, h2, h3⟩ | ⟨hne, h1, h2, h3, h4⟩
    · exact ⟨by omega, Or.inl h1.symm⟩
    · exact ⟨by omega, Or.inr (Or.inl h1.symm)⟩
    · rw [ne_cell] at hne
      exact ⟨by omega, Or.inr (Or.inr ⟨by omega, by omega⟩)⟩
  · rintro ⟨hpall, hsp⟩
    have hpb := (mem_allCells_iff p).mp hpall
    rw [specPeer] at hsp
    obtain ⟨hne, hshare⟩ := hsp
    have hvp : var ≠ p := fun h => hne h.symm
    rcases hshare with h | h | h
    · exact mem_members_row var p hpb.2 hvp h
    · exact mem_members_col var p hpb.1 hvp h
    · exact mem_members_box var p hpb.1 hpb.2 hvp h.1 h.2

/-- Witness for the amended C8 at cell (0,0). -/
theorem populate_members_amended_witness :
    (((0 : ℕ), (4 : ℕ)) ∈ populate_members (0, 0) ↔
      (((0 : ℕ), (4 : ℕ)) ∈ allCells ∧ specPeer (0, 0) (0, 4))) ∧
    ((0 : ℕ), (0 : ℕ)) ∉ populate_members (0, 0) ∧
    (populate_members (0, 0)).toFinset.card = 20 ∧
    (populate_members (0, 0)).length = 24 :=
  ⟨(populate_members_amended (0, 0) (by decide)).1 (0, 4),
   (populate_members_amended (0, 0) (by decide)).2.1,
   (populate_members_amended (0, 0) (by decide)).2.2.1,
   (populate_members_amended (0, 0) (by decide)).2.2.2⟩

/-! ### The search engine: consistency invariant and trace (claims C1-C5) -/

theorem is_valid_iff (var : Cell) (value : ℕ) (sol : Grid) :
    is_valid var value sol = true ↔
      ∀ m ∈ populate_members var, sol m ≠ some value := by
  unfold is_valid
  rw [List.all_eq_true]
  constructor
  · intro h m hm
    have := h m hm
    simpa using this
  · intro h m hm
    simpa using h m hm

theorem consistent_update (sol : Grid) (var : Cell) (value : ℕ)
    (hvar : var ∈ allCells) (hvalid : is_valid var value sol = true)
    (hcons : Consistent sol) :
    Consistent (updMap sol var (some value)) := by
  have hval := (is_valid_iff var value sol).mp hvalid
  have hvb := (mem_allCells_iff var).mp hvar
  intro c hc m hm hcnone
  have hcb := (mem_allCells_iff c).mp hc
  by_cases hcv : c = var
  · have hmv : m ≠ var := by
      intro hmv
      rw [hcv] at hm
      rw [hmv] at hm
      exact self_not_mem_members var hm
    rw [hcv, updMap_same, updMap_ne _ _ _ _ hmv]
    have := hval m (hcv ▸ hm)
    exact fun h => this h.symm
  · rw [updMap_ne _ _ _ _ hcv]
    by_cases hmv : m = var
    · rw [hmv, updMap_same]
      have hcmem : c ∈ populate_members var :=
        members_symm c var hcb.1 hcb.2 (hmv ▸ hm)
      exact hval c hcmem
    · rw [updMap_ne _ _ _ _ hmv]
      have hcn : sol c ≠ none := by
        rwa [updMap_ne _ _ _ _ hcv] at hcnone
      exact hcons c hc m hm hcn

theorem all_isSome_iff (sol : Grid) :
    allCells.all (fun v => (sol v).isSome) = true ↔ FullyAssigned sol := by
  rw [List.all_eq_true]
  exact Iff.rfl

theorem get_empty_var_some (sol : Grid) (ov : OV) (c : Cell) :
    get_empty_var sol ov = some c → c ∈ allCells ∧ sol c = none := by
  intro h
  unfold get_empty_var at h
  have hmem := List.get?_mem h
  have hf := List.mem_filter.mp hmem
  exact ⟨hf.1, by simpa [Option.isNone_iff_eq_none] using hf.2⟩

theorem try_values_consistent
    (rec : Grid → OV → Option (Option Grid × List Grid))
    (hrec : ∀ sol2 ov2, Consistent sol2 → ∀ p,
        rec sol2 ov2 = some p →
        (∀ t ∈ p.2, Consistent t) ∧
        (∀ s, p.1 = some s → Consistent s ∧ FullyAssigned s))
    (var : Cell) (hvar : var ∈ allCells)
    (sol : Grid) (hcons : Consistent sol) (ov : OV) :
    ∀ vs : List ℕ, ∀ p, try_values rec var sol ov vs = some p →
      (∀ t ∈ p.2, Consistent t) ∧
      (∀ s, p.1 = some s → Consistent s ∧ FullyAssigned s) := by
  intro vs
  induction vs with
  | nil =>
    intro p hp
    simp only [try_values] at hp
    cases hp
    constructor
    · intro t ht
      exact absurd ht (List.not_mem_nil t)
    · intro s hs
      cases hs
  | cons value rest ih =>
    intro p hp
    simp only [try_values] at hp
    by_cases hv : is_valid var value sol = true
    · rw [if_pos hv] at hp
      have hcons2 : Consistent (updMap sol var (some value)) :=
        consistent_update sol var value hvar hv hcons
      by_cases hfc : (forward_check var value ov).1 = true
      · rw [if_pos hfc] at hp
        cases hr : rec (updMap sol var (some value)) (forward_check var value ov).2 with
        | none =>
          rw [hr] at hp
          cases hp
        | some q =>
          rw [hr] at hp
          obtain ⟨q1, tr⟩ := q
          have hq := hrec _ _ hcons2 (q1, tr) hr
          cases q1 with
          | some s =>
            cases hp
            constructor
            · intro t ht
              rcases List.mem_cons.mp ht with rfl | htr
              · exact hcons2
              · exact hq.1 t htr
            · intro s2 hs2
              cases hs2
              exact hq.2 s rfl
          | none =>
            cases hrest : try_values rec var sol ov rest with
            | none =>
              rw [hrest] at hp
              cases hp
            | some pr =>
              rw [hrest] at hp
              have hpr := ih pr hrest
              cases hp
              constructor
              · intro t ht
                rcases List.mem_cons.mp ht with rfl | ht2
                · exact hcons2
                · rcases List.mem_append.mp ht2 with ht3 | ht4
                  · exact hq.1 t ht3
                  · rcases List.mem_cons.mp ht4 with rfl | ht5
                    · exact hcons
                    · exact hpr.1 t ht5
              · intro s hs
                exact hpr.2 s hs
      · rw [if_neg hfc] at hp
        cases hrest : try_values rec var sol ov rest with
        | none =>
          rw [hrest] at hp
          cases hp
        | some pr =>
          rw [hrest] at hp
          have hpr := ih pr hrest
          cases hp
          constructor
          · intro t ht
            rcases List.mem_cons.mp ht with rfl | ht2
            · exact hcons2
            · rcases List.mem_cons.mp ht2 with rfl | ht3
              · exact hcons
              · exact hpr.1 t ht3
          · intro s hs
            exact hpr.2 s hs
    · rw [if_neg hv] at hp
      exact ih p hp

theorem dfs_consistent :
    ∀ (fuel : ℕ) (sol : Grid) (ov : OV), Consistent sol → ∀ p,
      depth_first_search fuel sol ov = some p →
      (∀ t ∈ p.2, Consistent t) ∧
      (∀ s, p.1 = some s → Consistent s ∧ FullyAssigned s) := by
  intro fuel
  induction fuel with
  | zero =>
    intro sol ov _ p hp
    cases hp
  | succ fuel ih =>
    intro sol ov hcons p hp
    simp only [depth_first_search] at hp
    by_cases hall : allCells.all (fun v => (sol v).isSome) = true
    · rw [if_pos hall] at hp
      cases hp
      constructor
      · intro t ht
        exact absurd ht (List.not_mem_nil t)
      · intro s hs
        cases hs
        exact ⟨hcons, (all_isSome_iff sol).mp hall⟩
    · rw [if_neg hall] at hp
      cases hge : get_empty_var sol ov with
      | none =>
        rw [hge] at hp
        cases hp
        constructor
        · intro t ht
          exact absurd ht (List.not_mem_nil t)
        · intro s hs
          cases hs
      | some var =>
        rw [hge] at hp
        have hvspec := get_empty_var_some sol ov var hge
        exact try_values_consistent (depth_first_search fuel)
          (fun sol2 ov2 h2 => ih sol2 ov2 h2) var hvspec.1 sol hcons ov
          (set_iter (ov var)) p hp

theorem solsub_update (sol : Grid) (P : OV) (var : Cell) (value : ℕ)
    (hsol : SolSub sol P) (hval : value ∈ P var) :
    SolSub (updMap sol var (some value)) P := by
  intro c hc w hw
  by_cases hcv : c = var
  · rw [hcv, updMap_same] at hw
    cases hw
    rwa [hcv]
  · rw [updMap_ne _ _ _ _ hcv] at hw
    exact hsol c hc w hw

theorem try_values_solsub
    (P : OV)
    (rec : Grid → OV → Option (Option Grid × List Grid))
    (hrec : ∀ sol2 ov2, SolSub sol2 P → (∀ c, ov2 c ⊆ P c) →
        ∀ p s, rec sol2 ov2 = some p → p.1 = some s → SolSub s P)
    (var : Cell) (sol : Grid) (ov : OV)
    (hsol : SolSub sol P) (hov : ∀ c, ov c ⊆ P c) :
    ∀ vs : List ℕ, (∀ v ∈ vs, v ∈ P var) → ∀ p s,
      try_values rec var sol ov vs = some p → p.1 = some s → SolSub s P := by
  intro vs
  induction vs with
  | nil =>
    intro _ p s hp hs
    simp only [try_values] at hp
    cases hp
    cases hs
  | cons value rest ih =>
    intro hvs p s hp hs
    have hvP : value ∈ P var := hvs value (List.mem_cons_self value rest)
    have hrest_vs : ∀ v ∈ rest, v ∈ P var :=
      fun v hv => hvs v (List.mem_cons_of_mem value hv)
    simp only [try_values] at hp
    by_cases hv : is_valid var value sol = true
    · rw [if_pos hv] at hp
      have hsol2 : SolSub (updMap sol var (some value)) P :=
        solsub_update sol P var value hsol hvP
      have hov2 : ∀ c, (forward_check var value ov).2 c ⊆ P c :=
        fun c => subset_trans (forward_check_sub var value ov c) (hov c)
      by_cases hfc : (forward_check var value ov).1 = true
      · rw [if_pos hfc] at hp
        cases hr : rec (updMap sol var (some value)) (forward_check var value ov).2 with
        | none =>
          rw [hr] at hp
          cases hp
        | some q =>
          rw [hr] at hp
          obtain ⟨q1, tr⟩ := q
          cases q1 with
          | some s2 =>
            cases hp
            cases hs
            exact hrec _ _ hsol2 hov2 _ _ hr rfl
          | none =>
            cases hrest : try_values rec var sol ov rest with
            | none =>
              rw [hrest] at hp
              cases hp
            | some pr =>
              rw [hrest] at hp
              cases hp
              exact ih hrest_vs pr s hrest hs
      · rw [if_neg hfc] at hp
        cases hrest : try_values rec var sol ov rest with
        | none =>
          rw [hrest] at hp
          cases hp
        | some pr =>
          rw [hrest] at hp
          cases hp
          exact ih hrest_vs pr s hrest hs
    · rw [if_neg hv] at hp
      exact ih hrest_vs p s hp hs

theorem dfs_solsub (P : OV) :
    ∀ (fuel : ℕ) (sol : Grid) (ov : OV),
      SolSub sol P → (∀ c, ov c ⊆ P c) → ∀ p s,
      depth_first_search fuel sol ov = some p → p.1 = some s → SolSub s P := by
  intro fuel
  induction fuel with
  | zero =>
    intro sol ov _ _ p s hp _
    cases hp
  | succ fuel ih =>
    intro sol ov hsol hov p s hp hs
    simp only [depth_first_search] at hp
    by_cases hall : allCells.all (fun v => (sol v).isSome) = true
    · rw [if_pos hall] at hp
      cases hp
      cases hs
      exact hsol
    · rw [if_neg hall] at hp
      cases hge : get_empty_var sol ov with
      | none =>
        rw [hge] at hp
        cases hp
        cases hs
      | some var =>
        rw [hge] at hp
        have hvs : ∀ v ∈ set_iter (ov var), v ∈ P var := by
          intro v hv
          exact hov var ((mem_set_iter (ov var) v).mp hv)
        exact try_values_solsub P (depth_first_search fuel)
          (fun sol2 ov2 h2 h3 => ih sol2 ov2 h2 h3) var sol ov hsol hov
          (set_iter (ov var)) hvs p s hp hs

/-! ### Termination: the fuel 82 always suffices (claim C4) -/

theorem unassigned_count_decrease (sol : Grid) (var : Cell) (value : ℕ)
    (hvar : var ∈ allCells) (hnone : sol var = none) :
    (allCells.filter (fun v => ((updMap sol var (some value)) v).isNone)).length + 1 =
    (allCells.filter (fun v => (sol v).isNone)).length := by
  obtain ⟨s, t, hst⟩ := List.append_of_mem hvar
  have hnd : (s ++ var :: t).Nodup := hst ▸ allCells_nodup
  have hvs : var ∉ s := by
    intro hv
    rw [List.nodup_append] at hnd
    exact hnd.2.2 hv (List.mem_cons_self var t)
  have hvt : var ∉ t := by
    rw [List.nodup_append] at hnd
    exact ((List.nodup_cons.mp hnd.2.1).1)
  have hcongr : ∀ (l : List Cell), var ∉ l →
      l.filter (fun v => ((updMap sol var (some value)) v).isNone) =
      l.filter (fun v => (sol v).isNone) := by
    intro l hl
    apply List.filter_congr
    intro v hv
    have hne : v ≠ var := fun hc => hl (hc ▸ hv)
    rw [updMap_ne _ _ _ _ hne]
  rw [hst, List.filter_append, List.filter_append, List.filter_cons,
    List.filter_cons, hcongr s hvs, hcongr t hvt]
  have h1 : ¬ (((updMap sol var (some value)) var).isNone = true) := by
    rw [updMap_same]
    simp
  have h2 : (sol var).isNone = true := by
    rw [hnone]
    rfl
  rw [if_neg h1, if_pos h2]
  simp only [List.length_append, List.length_cons]
  omega

theorem try_values_total
    (rec : Grid → OV → Option (Option Grid × List Grid))
    (var : Cell) (sol : Grid) (ov : OV)
    (hrec : ∀ (value : ℕ) (ov2 : OV),
      (rec (updMap sol var (some value)) ov2).isSome = true) :
    ∀ vs : List ℕ, (try_values rec var sol ov vs).isSome = true := by
  intro vs
  induction vs with
  | nil =>
    simp [try_values]
  | cons value rest ih =>
    simp only [try_values]
    by_cases hv : is_valid var value sol = true
    · rw [if_pos hv]
      by_cases hfc : (forward_check var value ov).1 = true
      · rw [if_pos hfc]
        cases hr : rec (updMap sol var (some value)) (forward_check var value ov).2 with
        | none =>
          have := hrec value (forward_check var value ov).2
          rw [hr] at this
          cases this
        | some q =>
          obtain ⟨q1, tr⟩ := q
          cases q1 with
          | some s => rfl
          | none =>
            cases hrest : try_values rec var sol ov rest with
            | none =>
              rw [hrest] at ih
              cases ih
            | some pr => rfl
      · rw [if_neg hfc]
        cases hrest : try_values rec var sol ov rest with
        | none =>
          rw [hrest] at ih
          cases ih
        | some pr => rfl
    · rw [if_neg hv]
      exact ih

theorem dfs_total :
    ∀ (fuel : ℕ) (sol : Grid) (ov : OV),
      (allCells.filter (fun v => (sol v).isNone)).length < fuel →
      (depth_first_search fuel sol ov).isSome = true := by
  intro fuel
  induction fuel with
  | zero =>
    intro sol ov hlt
    omega
  | succ fuel ih =>
    intro sol ov hlt
    simp only [depth_first_search]
    by_cases hall : allCells.all (fun v => (sol v).isSome) = true
    · rw [if_pos hall]
      rfl
    · rw [if_neg hall]
      cases hge : get_empty_var sol ov with
      | none => rfl
      | some var =>
        have hvspec := get_empty_var_some sol ov var hge
        apply try_values_total
        intro value ov2
        apply ih
        have := unassigned_count_decrease sol var value hvspec.1 hvspec.2
        omega

theorem consistent_sol0 : Consistent sol0 :=
  fun _ _ _ _ h => absurd rfl h

/-- Claim C4.  The search always terminates: with fuel 82 (one more than the
81 cells of the board) depth_first_search never runs out of fuel, because
every recursive call strictly decreases the number of unassigned cells; and
the np.argmin call inside get_empty_var is never applied to an empty list
(it returns a cell whenever an unassigned cell exists), so no exception is
raised.  Hence sudoku_solver always returns a grid. -/
theorem dfs_terminates :
    (∀ sudoku : InGrid,
      (depth_first_search 82 sol0 (populate_order_values sudoku)).isSome = true) ∧
    (∀ (sol : Grid) (ov : OV), (∃ v ∈ allCells, sol v = none) →
      (get_empty_var sol ov).isSome = true) := by
  constructor
  · intro sudoku
    apply dfs_total
    decide
  · intro sol ov hv
    cases hge : get_empty_var sol ov with
    | none =>
      obtain ⟨v0, hv0, hv0n⟩ := hv
      have hfil := (get_empty_var_none_iff sol ov).mp hge
      have : v0 ∈ allCells.filter (fun v => (sol v).isNone) :=
        List.mem_filter.mpr ⟨hv0, by simp [hv0n]⟩
      rw [hfil] at this
      exact absurd this (List.not_mem_nil v0)
    | some c => rfl

/-- Witness for C4's hypothesis-bearing part at a concrete state. -/
theorem dfs_terminates_witness :
    (∃ v ∈ allCells, sol0 v = none) ∧
    (get_empty_var sol0 (populate_order_values ugrid)).isSome = true :=
  ⟨⟨(0, 0), by decide, rfl⟩,
    dfs_terminates.2 sol0 (populate_order_values ugrid) ⟨(0, 0), by decide, rfl⟩⟩

/-- Claim C5.  Every state of the solution array reachable during the
search - recorded in the trace after each tentative assignment and each
restoration on backtrack (forward checking never touches the array) - is
Sudoku-consistent: no two cells that are members of each other hold the same
assigned value, provided the starting array is consistent (the top-level
call starts from the all-unassigned array, which is trivially consistent). -/
theorem dfs_trace_consistent (fuel : ℕ) (sol : Grid) (ov : OV)
    (hcons : Consistent sol) :
    ∀ t ∈ traceOf (depth_first_search fuel sol ov), Consistent t := by
  intro t ht
  cases hd : depth_first_search fuel sol ov with
  | none =>
    rw [hd] at ht
    exact absurd ht (List.not_mem_nil t)
  | some p =>
    rw [hd] at ht
    exact (dfs_consistent fuel sol ov hcons p hd).1 t ht

/-- Witness for C5: the search on the unsolvable two-1s grid, started from
the all-unassigned array. -/
theorem dfs_trace_consistent_witness :
    Consistent sol0 ∧
    (∀ t ∈ traceOf (depth_first_search 82 sol0 (populate_order_values ugrid)),
      Consistent t) :=
  ⟨fun _ _ _ _ h => absurd rfl h,
    dfs_trace_consistent 82 sol0 (populate_order_values ugrid)
      (fun _ _ _ _ h => absurd rfl h)⟩

/-! ### From the invariants to a valid solved grid (claims C1-C3) -/

theorem populate_order_values_bounds (sudoku : InGrid)
    (h9 : ∀ c ∈ allCells, sudoku c ≤ 9) :
    ∀ c ∈ allCells, ∀ w, w ∈ populate_order_values sudoku c →
      1 ≤ w ∧ w ≤ 9 := by
  intro c hc w hw
  unfold populate_order_values at hw
  by_cases h0 : sudoku c = 0
  · rw [if_pos h0, Finset.mem_Icc] at hw
    exact hw
  · rw [if_neg h0, Finset.mem_singleton] at hw
    subst hw
    exact ⟨by omega, h9 c hc⟩

theorem solsub_sol0 (P : OV) : SolSub sol0 P :=
  fun _ _ _ hw => Option.noConfusion hw

theorem nine_values_count (L : List ℤ) (hlen : L.length = 9) (hnd : L.Nodup)
    (hmem : ∀ x ∈ L, 1 ≤ x ∧ x ≤ 9) :
    ∀ v : ℤ, 1 ≤ v → v ≤ 9 → L.count v = 1 := by
  intro v hv1 hv9
  have hsub : L.toFinset ⊆ Finset.Icc (1 : ℤ) 9 := by
    intro x hx
    rw [List.mem_toFinset] at hx
    rw [Finset.mem_Icc]
    exact hmem x hx
  have hcard : L.toFinset.card = 9 := by
    rw [List.card_toFinset, List.Nodup.dedup hnd, hlen]
  have hicc : (Finset.Icc (1 : ℤ) 9).card = 9 := by decide
  have heq : L.toFinset = Finset.Icc (1 : ℤ) 9 :=
    Finset.eq_of_subset_of_card_le hsub (by omega)
  have hvL : v ∈ L := by
    rw [← List.mem_toFinset, heq, Finset.mem_Icc]
    exact ⟨hv1, hv9⟩
  exact List.count_eq_one_of_mem hnd hvL

theorem line_count (s : Grid) (hcons : Consistent s) (hfull : FullyAssigned s)
    (hvals : ∀ c ∈ allCells, ∀ w, s c = some w → 1 ≤ w ∧ w ≤ 9)
    (f : ℕ → Cell) (hf : ∀ k, k < 9 → f k ∈ allCells)
    (hpeer : ∀ k l, k < 9 → l < 9 → k ≠ l → f l ∈ populate_members (f k)) :
    ∀ v : ℤ, 1 ≤ v → v ≤ 9 →
      ((List.range 9).map (fun k => grid_output s (f k))).count v = 1 := by
  have hw : ∀ k, k < 9 → ∃ w, s (f k) = some w ∧ 1 ≤ w ∧ w ≤ 9 := by
    intro k hk
    have hsome := hfull (f k) (hf k hk)
    obtain ⟨w, hwk⟩ := Option.isSome_iff_exists.mp hsome
    exact ⟨w, hwk, hvals (f k) (hf k hk) w hwk⟩
  apply nine_values_count
  · simp
  · rw [List.nodup_iff_getElem?_ne_getElem?]
    intro i j hij hjlen
    rw [List.length_map, List.length_range] at hjlen
    obtain ⟨wi, hwi, hwib⟩ := hw i (by omega)
    obtain ⟨wj, hwj, hwjb⟩ := hw j hjlen
    have hgi : ((List.range 9).map (fun k => grid_output s (f k)))[i]? =
        some (grid_output s (f i)) := by
      rw [List.getElem?_map]
      rw [List.getElem?_range (by omega : i < 9)]
      rfl
    have hgj : ((List.range 9).map (fun k => grid_output s (f k)))[j]? =
        some (grid_output s (f j)) := by
      rw [List.getElem?_map]
      rw [List.getElem?_range hjlen]
      rfl
    rw [hgi, hgj]
    intro hc
    injection hc with hc
    have houti : grid_output s (f i) = (wi : ℤ) := by
      simp [grid_output, hwi]
    have houtj : grid_output s (f j) = (wj : ℤ) := by
      simp [grid_output, hwj]
    rw [houti, houtj] at hc
    have hww : wi = wj := by exact_mod_cast hc
    have hpij := hpeer i j (by omega) hjlen (by omega)
    have hci := hcons (f i) (hf i (by omega)) (f j) hpij (by rw [hwi]; simp)
    rw [hwi, hwj, hww] at hci
    exact hci rfl
  · intro x hx
    rw [List.mem_map] at hx
    obtain ⟨k, hk, hkx⟩ := hx
    rw [List.mem_range] at hk
    obtain ⟨w, hwk, hwb⟩ := hw k hk
    have : grid_output s (f k) = (w : ℤ) := by
      simp [grid_output, hwk]
    rw [← hkx, this]
    constructor
    · exact_mod_cast hwb.1
    · exact_mod_cast hwb.2

/-- Extraction of the success case: a non-sentinel output comes from a
search result that is consistent, fully assigned and within the initial
candidate sets. -/
theorem solver_success (sudoku : InGrid)
    (hne : ¬ (∀ c ∈ allCells, sudoku_solver sudoku c = -1)) :
    ∃ s tr, depth_first_search 82 sol0 (populate_order_values sudoku) =
        some (some s, tr) ∧
      sudoku_solver sudoku = grid_output s ∧
      Consistent s ∧ FullyAssigned s ∧
      SolSub s (populate_order_values sudoku) := by
  cases hd : depth_first_search 82 sol0 (populate_order_values sudoku) with
  | none =>
    exfalso
    apply hne
    intro c _
    simp [sudoku_solver, hd, failed_grid]
  | some p =>
    obtain ⟨r1, tr⟩ := p
    cases r1 with
    | none =>
      exfalso
      apply hne
      intro c _
      simp [sudoku_solver, hd, failed_grid]
    | some s =>
      have hCF := dfs_consistent 82 sol0 _ consistent_sol0 _ hd
      have h2 := hCF.2 s rfl
      have hsub := dfs_solsub (populate_order_values sudoku) 82 sol0 _
        (solsub_sol0 _) (fun c => subset_rfl) _ s hd rfl
      exact ⟨s, tr, rfl, by simp [sudoku_solver, hd], h2.1, h2.2, hsub⟩

/-- Claim C1.  If sudoku_solver returns a grid other than the all-(-1)
sentinel, then every entry is in 1..9 and each row, each column and each
3x3 box contains each value 1..9 exactly once. -/
theorem solver_output_valid (sudoku : InGrid)
    (h9 : ∀ c ∈ allCells, sudoku c ≤ 9)
    (hne : ¬ (∀ c ∈ allCells, sudoku_solver sudoku c = -1)) :
    (∀ c ∈ allCells,
      1 ≤ sudoku_solver sudoku c ∧ sudoku_solver sudoku c ≤ 9) ∧
    (∀ r : ℕ, r < 9 → ∀ v : ℤ, 1 ≤ v → v ≤ 9 →
      ((List.range 9).map (fun j => sudoku_solver sudoku (r, j))).count v = 1) ∧
    (∀ cl : ℕ, cl < 9 → ∀ v : ℤ, 1 ≤ v → v ≤ 9 →
      ((List.range 9).map (fun i => sudoku_solver sudoku (i, cl))).count v = 1) ∧
    (∀ br bc : ℕ, br < 3 → bc < 3 → ∀ v : ℤ, 1 ≤ v → v ≤ 9 →
      ((List.range 9).map (fun k =>
        sudoku_solver sudoku (3 * br + k / 3, 3 * bc + k % 3))).count v = 1) := by
  obtain ⟨s, tr, hd, hout, hcons, hfull, hsub⟩ := solver_success sudoku hne
  have hvals : ∀ c ∈ allCells, ∀ w, s c = some w → 1 ≤ w ∧ w ≤ 9 :=
    fun c hc w hw =>
      populate_order_values_bounds sudoku h9 c hc w (hsub c hc w hw)
  rw [hout]
  refine ⟨?_, ?_, ?_, ?_⟩
  · intro c hc
    obtain ⟨w, hwc⟩ := Option.isSome_iff_exists.mp (hfull c hc)
    have hb := hvals c hc w hwc
    have : grid_output s c = (w : ℤ) := by simp [grid_output, hwc]
    rw [this]
    exact ⟨by exact_mod_cast hb.1, by exact_mod_cast hb.2⟩
  · intro r hr v h1 h9v
    exact line_count s hcons hfull hvals (fun j => (r, j))
      (fun k hk => (mem_allCells_iff _).mpr ⟨hr, hk⟩)
      (fun k l _ hl hkl =>
        mem_members_row (r, k) (r, l) hl
          (fun h => hkl (congrArg Prod.snd h)) rfl)
      v h1 h9v
  · intro cl hcl v h1 h9v
    exact line_count s hcons hfull hvals (fun i => (i, cl))
      (fun k hk => (mem_allCells_iff _).mpr ⟨hk, hcl⟩)
      (fun k l _ hl hkl =>
        mem_members_col (k, cl) (l, cl) hl
          (fun h => hkl (congrArg Prod.fst h)) rfl)
      v h1 h9v
  · intro br bc hbr hbc v h1 h9v
    exact line_count s hcons hfull hvals
      (fun k => (3 * br + k / 3, 3 * bc + k % 3))
      (fun k hk => (mem_allCells_iff _).mpr
        (show 3 * br + k / 3 < 9 ∧ 3 * bc + k % 3 < 9 from ⟨by omega, by omega⟩))
      (fun k l hk hl hkl =>
        mem_members_box (3 * br + k / 3, 3 * bc + k % 3)
          (3 * br + l / 3, 3 * bc + l % 3)
          (show 3 * br + l / 3 < 9 by omega)
          (show 3 * bc + l % 3 < 9 by omega)
          (fun h => hkl (by rw [Prod.mk.injEq] at h; omega))
          (show (3 * br + k / 3) / 3 = (3 * br + l / 3) / 3 by omega)
          (show (3 * bc + k % 3) / 3 = (3 * bc + l % 3) / 3 by omega))
      v h1 h9v

/-- Claim C3.  Whenever the solver returns a solved grid (not the sentinel),
every non-zero entry of the input is retained in the output: the pre-filled
cell's candidate set is the singleton of its value, and every assigned value
comes from the candidate set. -/
theorem solver_preserves_clues (sudoku : InGrid)
    (_h9 : ∀ c ∈ allCells, sudoku c ≤ 9)
    (hne : ¬ (∀ c ∈ allCells, sudoku_solver sudoku c = -1)) :
    ∀ c ∈ allCells, sudoku c ≠ 0 → sudoku_solver sudoku c = (sudoku c : ℤ) := by
  obtain ⟨s, tr, hd, hout, hcons, hfull, hsub⟩ := solver_success sudoku hne
  intro c hc h0
  obtain ⟨w, hwc⟩ := Option.isSome_iff_exists.mp (hfull c hc)
  have hmem := hsub c hc w hwc
  unfold populate_order_values at hmem
  rw [if_neg h0, Finset.mem_singleton] at hmem
  rw [hout]
  simp [grid_output, hwc, hmem]

/-- Witness for C3: the fully pre-filled valid grid keeps its pre-filled
top-left value in the output. -/
theorem solver_preserves_clues_witness :
    sudoku_solver wgrid (0, 0) = (wgrid (0, 0) : ℤ) :=
  solver_preserves_clues wgrid (by decide) (by decide) (0, 0) (by decide)
    (by decide)

/-- Claim C2.  If the input admits no completion (no full grid of digits
1..9 keeping the non-zero entries and satisfying the row/column/box
constraints), the solver returns the grid whose every entry is -1; and in
all cases the output is either that sentinel everywhere or a grid with every
entry in 1..9 - never a partially filled grid. -/
theorem solver_unsolvable_sentinel (sudoku : InGrid)
    (h9 : ∀ c ∈ allCells, sudoku c ≤ 9) :
    ((∀ w : Cell → ℕ, ¬ IsCompletion sudoku w) →
      ∀ c ∈ allCells, sudoku_solver sudoku c = -1) ∧
    ((∀ c ∈ allCells, sudoku_solver sudoku c = -1) ∨
      (∀ c ∈ allCells,
        1 ≤ sudoku_solver sudoku c ∧ sudoku_solver sudoku c ≤ 9)) := by
  have hbuild : ¬ (∀ c ∈ allCells, sudoku_solver sudoku c = -1) →
      (∃ w : Cell → ℕ, IsCompletion sudoku w) ∧
      (∀ c ∈ allCells,
        1 ≤ sudoku_solver sudoku c ∧ sudoku_solver sudoku c ≤ 9) := by
    intro hne
    obtain ⟨s, tr, hd, hout, hcons, hfull, hsub⟩ := solver_success sudoku hne
    have hvals : ∀ c ∈ allCells, ∀ w, s c = some w → 1 ≤ w ∧ w ≤ 9 :=
      fun c hc w hw =>
        populate_order_values_bounds sudoku h9 c hc w (hsub c hc w hw)
    have hval_at : ∀ c ∈ allCells, s c = some ((s c).getD 0) := by
      intro c hc
      obtain ⟨w, hwc⟩ := Option.isSome_iff_exists.mp (hfull c hc)
      rw [hwc]
      rfl
    constructor
    · refine ⟨fun c => (s c).getD 0, ?_, ?_, ?_⟩
      · intro c hc
        exact hvals c hc _ (hval_at c hc)
      · intro c hc h0
        have hmem := hsub c hc _ (hval_at c hc)
        unfold populate_order_values at hmem
        rw [if_neg h0, Finset.mem_singleton] at hmem
        exact hmem
      · intro c hc m hm hne2 hshare
        have hcb := (mem_allCells_iff c).mp hc
        have hmb := (mem_allCells_iff m).mp hm
        have hmmem : m ∈ populate_members c := by
          rcases hshare with h | h | h
          · exact mem_members_row c m hmb.2 hne2 h
          · exact mem_members_col c m hmb.1 hne2 h
          · exact mem_members_box c m hmb.1 hmb.2 hne2 h.1 h.2
        have hdiff := hcons c hc m hmmem (by rw [hval_at c hc]; simp)
        intro heq
        have heq2 : (s c).getD 0 = (s m).getD 0 := heq
        apply hdiff
        rw [hval_at c hc, hval_at m hm, heq2]
    · intro c hc
      obtain ⟨w, hwc⟩ := Option.isSome_iff_exists.mp (hfull c hc)
      have hb := hvals c hc w hwc
      have hout_c : sudoku_solver sudoku c = (w : ℤ) := by
        rw [hout]
        simp [grid_output, hwc]
      rw [hout_c]
      exact ⟨by exact_mod_cast hb.1, by exact_mod_cast hb.2⟩
  constructor
  · intro hunsat
    by_contra hne2
    push_neg at hne2
    obtain ⟨c, hc, hcne⟩ := hne2
    have hne : ¬ (∀ c ∈ allCells, sudoku_solver sudoku c = -1) := by
      intro hall
      exact hcne (hall c hc)
    obtain ⟨⟨w, hw⟩, _⟩ := hbuild hne
    exact hunsat w hw
  · by_cases hall : ∀ c ∈ allCells, sudoku_solver sudoku c = -1
    · exact Or.inl hall
    · exact Or.inr (hbuild hall).2

/-- Witness for C2: the two-1s-in-a-row grid admits no completion, and the
solver returns the all-(-1) grid on it. -/
theorem solver_unsolvable_sentinel_witness :
    (∀ w : Cell → ℕ, ¬ IsCompletion ugrid w) ∧
    (∀ c ∈ allCells, sudoku_solver ugrid c = -1) := by
  have hunsat : ∀ w : Cell → ℕ, ¬ IsCompletion ugrid w := by
    intro w hw
    obtain ⟨hb, hpre, hdist⟩ := hw
    have h00 : w (0, 0) = 1 := by
      rw [hpre (0, 0) (by decide) (by decide)]
      decide
    have h01 : w (0, 1) = 1 := by
      rw [hpre (0, 1) (by decide) (by decide)]
      decide
    exact hdist (0, 0) (by decide) (0, 1) (by decide) (by decide)
      (Or.inl rfl) (h00.trans h01.symm)
  exact ⟨hunsat, (solver_unsolvable_sentinel ugrid (by decide)).1 hunsat⟩

/-- Witness for C1: the solver's output on the fully pre-filled valid grid
is a valid solved grid. -/
theorem solver_output_valid_witness :
    (∀ c ∈ allCells,
      1 ≤ sudoku_solver wgrid c ∧ sudoku_solver wgrid c ≤ 9) ∧
    (∀ r : ℕ, r < 9 → ∀ v : ℤ, 1 ≤ v → v ≤ 9 →
      ((List.range 9).map (fun j => sudoku_solver wgrid (r, j))).count v = 1) ∧
    (∀ cl : ℕ, cl < 9 → ∀ v : ℤ, 1 ≤ v → v ≤ 9 →
      ((List.range 9).map (fun i => sudoku_solver wgrid (i, cl))).count v = 1) ∧
    (∀ br bc : ℕ, br < 3 → bc < 3 → ∀ v : ℤ, 1 ≤ v → v ≤ 9 →
      ((List.range 9).map (fun k =>
        sudoku_solver wgrid (3 * br + k / 3, 3 * bc + k % 3))).count v = 1) :=
  solver_output_valid wgrid (by decide) (by decide)

/-! ### The solver reads only the 81 board cells of its input (claim C10) -/

theorem list_all_congr (l : List Cell) (f g : Cell → Bool)
    (h : ∀ a ∈ l, f a = g a) : l.all f = l.all g := by
  induction l with
  | nil => rfl
  | cons x xs ih =>
    simp only [List.all_cons]
    rw [h x (List.mem_cons_self x xs),
      ih (fun a ha => h a (List.mem_cons_of_mem x ha))]

theorem updMap_congr {α : Type} (f g : Cell → α) (a : Cell) (b : α)
    (h : ∀ c ∈ allCells, f c = g c) :
    ∀ c ∈ allCells, updMap f a b c = updMap g a b c := by
  intro c hc
  by_cases hca : c = a
  · rw [hca, updMap_same, updMap_same]
  · rw [updMap_ne _ _ _ _ hca, updMap_ne _ _ _ _ hca]
    exact h c hc

theorem restore_values_congr (value : ℕ) :
    ∀ (changes : List Cell) (ov1 ov2 : OV),
      (∀ c ∈ allCells, ov1 c = ov2 c) →
      ∀ c ∈ allCells,
        restore_values value changes ov1 c = restore_values value changes ov2 c := by
  intro changes
  induction changes with
  | nil => intro ov1 ov2 h c hc; exact h c hc
  | cons c0 rest ih =>
    intro ov1 ov2 h c hc
    have hupd : ∀ c ∈ allCells,
        updMap ov1 c0 (insert value (ov1 c0)) c =
        updMap ov2 c0 (insert value (ov2 c0)) c := by
      intro d hd
      by_cases hdc : d = c0
      · rw [hdc, updMap_same, updMap_same]
        by_cases hc0 : c0 ∈ allCells
        · rw [h c0 hc0]
        · rw [hdc] at hd
          exact absurd hd hc0
      · rw [updMap_ne _ _ _ _ hdc, updMap_ne _ _ _ _ hdc]
        exact h d hd
    exact ih _ _ hupd c hc

theorem forward_check_go_congr (value : ℕ) :
    ∀ (ms : List Cell) (ov1 ov2 : OV) (changes : List Cell),
      (∀ c ∈ allCells, ov1 c = ov2 c) →
      (∀ m ∈ ms, m ∈ allCells) →
      (forward_check_go value ov1 changes ms).1 =
        (forward_check_go value ov2 changes ms).1 ∧
      (∀ c ∈ allCells, (forward_check_go value ov1 changes ms).2 c =
        (forward_check_go value ov2 changes ms).2 c) := by
  intro ms
  induction ms with
  | nil => intro ov1 ov2 changes hov _; exact ⟨rfl, hov⟩
  | cons m ms ih =>
    intro ov1 ov2 changes hov hms
    have hm : m ∈ allCells := hms m (List.mem_cons_self m ms)
    have hms2 : ∀ a ∈ ms, a ∈ allCells :=
      fun a ha => hms a (List.mem_cons_of_mem m ha)
    have hovm : ov1 m = ov2 m := hov m hm
    have hupd : ∀ c ∈ allCells,
        updMap ov1 m ((ov1 m).erase value) c =
        updMap ov2 m ((ov2 m).erase value) c := by
      rw [hovm]
      exact updMap_congr ov1 ov2 m ((ov2 m).erase value) hov
    by_cases hv : value ∈ ov1 m
    · have hv2 : value ∈ ov2 m := hovm ▸ hv
      simp only [forward_check_go, if_pos hv, if_pos hv2]
      have hcard : (updMap ov1 m ((ov1 m).erase value) m).card =
          (updMap ov2 m ((ov2 m).erase value) m).card := by
        rw [updMap_same, updMap_same, hovm]
      by_cases hc0 : (updMap ov1 m ((ov1 m).erase value) m).card = 0
      · rw [if_pos hc0, if_pos (hcard ▸ hc0)]
        exact ⟨rfl, restore_values_congr value (changes ++ [m]) _ _ hupd⟩
      · rw [if_neg hc0, if_neg (fun h => hc0 (hcard ▸ h))]
        exact ih _ _ (changes ++ [m]) hupd hms2
    · have hv2 : value ∉ ov2 m := fun h => hv (hovm ▸ h)
      simp only [forward_check_go, if_neg hv, if_neg hv2]
      exact ih _ _ changes hov hms2

theorem forward_check_congr (var : Cell) (value : ℕ) (ov1 ov2 : OV)
    (hvar : var ∈ allCells) (hov : ∀ c ∈ allCells, ov1 c = ov2 c) :
    (forward_check var value ov1).1 = (forward_check var value ov2).1 ∧
    (∀ c ∈ allCells, (forward_check var value ov1).2 c =
      (forward_check var value ov2).2 c) :=
  forward_check_go_congr value (populate_members var) ov1 ov2 [] hov
    (members_subset_allCells var hvar)

theorem is_valid_congr (var : Cell) (value : ℕ) (sol1 sol2 : Grid)
    (hvar : var ∈ allCells) (hsol : ∀ c ∈ allCells, sol1 c = sol2 c) :
    is_valid var value sol1 = is_valid var value sol2 := by
  unfold is_valid
  apply list_all_congr
  intro m hm
  rw [hsol m (members_subset_allCells var hvar m hm)]

theorem get_empty_var_congr (sol1 sol2 : Grid) (ov1 ov2 : OV)
    (hsol : ∀ c ∈ allCells, sol1 c = sol2 c)
    (hov : ∀ c ∈ allCells, ov1 c = ov2 c) :
    get_empty_var sol1 ov1 = get_empty_var sol2 ov2 := by
  have hfil : allCells.filter (fun v => (sol1 v).isNone) =
      allCells.filter (fun v => (sol2 v).isNone) :=
    List.filter_congr (fun v hv => by rw [hsol v hv])
  have hmap : (allCells.filter (fun v => (sol2 v).isNone)).map
        (fun v => (ov1 v).card) =
      (allCells.filter (fun v => (sol2 v).isNone)).map
        (fun v => (ov2 v).card) :=
    List.map_congr_left
      (fun v hv => by rw [hov v (List.mem_filter.mp hv).1])
  show (allCells.filter (fun v => (sol1 v).isNone)).get?
      (argmin_idx ((allCells.filter (fun v => (sol1 v).isNone)).map
        (fun v => (ov1 v).card))) =
    (allCells.filter (fun v => (sol2 v).isNone)).get?
      (argmin_idx ((allCells.filter (fun v => (sol2 v).isNone)).map
        (fun v => (ov2 v).card)))
  rw [hfil, hmap]

theorem try_values_congr
    (rec1 rec2 : Grid → OV → Option (Option Grid × List Grid))
    (hrec : ∀ sol1 sol2 ov1 ov2,
      (∀ c ∈ allCells, sol1 c = sol2 c) →
      (∀ c ∈ allCells, ov1 c = ov2 c) →
      ResultRel (rec1 sol1 ov1) (rec2 sol2 ov2))
    (var : Cell) (hvar : var ∈ allCells) :
    ∀ (vs : List ℕ) (sol1 sol2 : Grid) (ov1 ov2 : OV),
      (∀ c ∈ allCells, sol1 c = sol2 c) →
      (∀ c ∈ allCells, ov1 c = ov2 c) →
      ResultRel (try_values rec1 var sol1 ov1 vs)
        (try_values rec2 var sol2 ov2 vs) := by
  intro vs
  induction vs with
  | nil =>
    intro sol1 sol2 ov1 ov2 _ _
    simp only [try_values, ResultRel]
  | cons value rest ih =>
    intro sol1 sol2 ov1 ov2 hsol hov
    simp only [try_values]
    rw [is_valid_congr var value sol1 sol2 hvar hsol]
    by_cases hv : is_valid var value sol2 = true
    · rw [if_pos hv, if_pos hv]
      have hfc := forward_check_congr var value ov1 ov2 hvar hov
      rw [hfc.1]
      have hsol2 : ∀ c ∈ allCells,
          updMap sol1 var (some value) c = updMap sol2 var (some value) c :=
        updMap_congr _ _ _ _ hsol
      by_cases hb : (forward_check var value ov2).1 = true
      · rw [if_pos hb, if_pos hb]
        have hR := hrec _ _ _ _ hsol2 hfc.2
        cases hr1 : rec1 (updMap sol1 var (some value))
            (forward_check var value ov1).2 with
        | none =>
          cases hr2 : rec2 (updMap sol2 var (some value))
              (forward_check var value ov2).2 with
          | none => simp only [ResultRel]
          | some q2 =>
            rw [hr1, hr2] at hR
            simp only [ResultRel] at hR
        | some q1 =>
          cases hr2 : rec2 (updMap sol2 var (some value))
              (forward_check var value ov2).2 with
          | none =>
            rw [hr1, hr2] at hR
            simp only [ResultRel] at hR
          | some q2 =>
            rw [hr1, hr2] at hR
            obtain ⟨q1r, tr1⟩ := q1
            obtain ⟨q2r, tr2⟩ := q2
            cases q1r with
            | some s1 =>
              cases q2r with
              | some s2 =>
                simp only [ResultRel] at hR ⊢
                exact hR
              | none => simp only [ResultRel] at hR
            | none =>
              cases q2r with
              | some s2 => simp only [ResultRel] at hR
              | none =>
                have hI := ih sol1 sol2 ov1 ov2 hsol hov
                cases ht1 : try_values rec1 var sol1 ov1 rest with
                | none =>
                  cases ht2 : try_values rec2 var sol2 ov2 rest with
                  | none => simp only [ResultRel]
                  | some pr2 =>
                    rw [ht1, ht2] at hI
                    simp only [ResultRel] at hI
                | some pr1 =>
                  cases ht2 : try_values rec2 var sol2 ov2 rest with
                  | none =>
                    rw [ht1, ht2] at hI
                    simp only [ResultRel] at hI
                  | some pr2 =>
                    rw [ht1, ht2] at hI
                    obtain ⟨pr1r, pr1t⟩ := pr1
                    obtain ⟨pr2r, pr2t⟩ := pr2
                    cases pr1r <;> cases pr2r <;>
                      simp only [ResultRel] at hI ⊢ <;> exact hI
      · rw [if_neg hb, if_neg hb]
        have hI := ih sol1 sol2 ov1 ov2 hsol hov
        cases ht1 : try_values rec1 var sol1 ov1 rest with
        | none =>
          cases ht2 : try_values rec2 var sol2 ov2 rest with
          | none => simp only [ResultRel]
          | some pr2 =>
            rw [ht1, ht2] at hI
            simp only [ResultRel] at hI
        | some pr1 =>
          cases ht2 : try_values rec2 var sol2 ov2 rest with
          | none =>
            rw [ht1, ht2] at hI
            simp only [ResultRel] at hI
          | some pr2 =>
            rw [ht1, ht2] at hI
            obtain ⟨pr1r, pr1t⟩ := pr1
            obtain ⟨pr2r, pr2t⟩ := pr2
            cases pr1r <;> cases pr2r <;>
              simp only [ResultRel] at hI ⊢ <;> exact hI
    · rw [if_neg hv, if_neg hv]
      exact ih sol1 sol2 ov1 ov2 hsol hov

theorem dfs_congr :
    ∀ (fuel : ℕ) (sol1 sol2 : Grid) (ov1 ov2 : OV),
      (∀ c ∈ allCells, sol1 c = sol2 c) →
      (∀ c ∈ allCells, ov1 c = ov2 c) →
      ResultRel (depth_first_search fuel sol1 ov1)
        (depth_first_search fuel sol2 ov2) := by
  intro fuel
  induction fuel with
  | zero =>
    intro sol1 sol2 ov1 ov2 _ _
    simp only [depth_first_search, ResultRel]
  | succ fuel ih =>
    intro sol1 sol2 ov1 ov2 hsol hov
    simp only [depth_first_search]
    have hall : allCells.all (fun v => (sol1 v).isSome) =
        allCells.all (fun v => (sol2 v).isSome) :=
      list_all_congr allCells _ _ (fun v hv => by rw [hsol v hv])
    rw [hall]
    by_cases hfull : allCells.all (fun v => (sol2 v).isSome) = true
    · rw [if_pos hfull, if_pos hfull]
      simp only [ResultRel]
      exact hsol
    · rw [if_neg hfull, if_neg hfull]
      rw [get_empty_var_congr sol1 sol2 ov1 ov2 hsol hov]
      cases hge : get_empty_var sol2 ov2 with
      | none => simp only [ResultRel]
      | some var =>
        have hvar := (get_empty_var_some sol2 ov2 var hge).1
        have hiter : set_iter (ov1 var) = set_iter (ov2 var) := by
          rw [hov var hvar]
        show ResultRel
          (try_values (depth_first_search fuel) var sol1 ov1
            (set_iter (ov1 var)))
          (try_values (depth_first_search fuel) var sol2 ov2
            (set_iter (ov2 var)))
        rw [hiter]
        exact try_values_congr (depth_first_search fuel)
          (depth_first_search fuel) ih var hvar (set_iter (ov2 var))
          sol1 sol2 ov1 ov2 hsol hov

/-- Claim C10.  The solver is a pure function of the values of the 81 board
cells of its input: two inputs that agree on every board cell produce the
same output on every board cell.  (In the embedding all state is threaded
explicitly; the input grid is only ever read - populate_order_values is the
only consumer - and never the target of a store, so the Python call cannot
mutate its argument.) -/
theorem sudoku_solver_pure (g1 g2 : InGrid)
    (h : ∀ c ∈ allCells, g1 c = g2 c) :
    ∀ c ∈ allCells, sudoku_solver g1 c = sudoku_solver g2 c := by
  have hpov : ∀ c ∈ allCells,
      populate_order_values g1 c = populate_order_values g2 c := by
    intro c hc
    unfold populate_order_values
    rw [h c hc]
  have hR := dfs_congr 82 sol0 sol0 (populate_order_values g1)
    (populate_order_values g2) (fun _ _ => rfl) hpov
  intro c hc
  unfold sudoku_solver
  cases hr1 : depth_first_search 82 sol0 (populate_order_values g1) with
  | none =>
    cases hr2 : depth_first_search 82 sol0 (populate_order_values g2) with
    | none => rfl
    | some q2 =>
      rw [hr1, hr2] at hR
      simp only [ResultRel] at hR
  | some q1 =>
    cases hr2 : depth_first_search 82 sol0 (populate_order_values g2) with
    | none =>
      rw [hr1, hr2] at hR
      simp only [ResultRel] at hR
    | some q2 =>
      rw [hr1, hr2] at hR
      obtain ⟨q1r, tr1⟩ := q1
      obtain ⟨q2r, tr2⟩ := q2
      cases q1r with
      | none =>
        cases q2r with
        | none => rfl
        | some s2 => simp only [ResultRel] at hR
      | some s1 =>
        cases q2r with
        | none => simp only [ResultRel] at hR
        | some s2 =>
          simp only [ResultRel] at hR
          simp only [grid_output]
          rw [hR c hc]

/-- Witness for C10: the all-blank grid against a grid that differs from it
only outside the 81 board cells. -/
theorem sudoku_solver_pure_witness :
    (∀ c ∈ allCells, (fun _ : Cell => (0 : ℕ)) c =
      (fun c : Cell => if c.1 ≤ 8 ∧ c.2 ≤ 8 then 0 else 3) c) ∧
    (∀ c ∈ allCells, sudoku_solver (fun _ : Cell => (0 : ℕ)) c =
      sudoku_solver (fun c : Cell => if c.1 ≤ 8 ∧ c.2 ≤ 8 then 0 else 3) c) :=
  ⟨by decide,
    sudoku_solver_pure (fun _ : Cell => (0 : ℕ))
      (fun c : Cell => if c.1 ≤ 8 ∧ c.2 ≤ 8 then 0 else 3) (by decide)⟩
